import Mathlib

set_option linter.unusedVariables false

/-!
# Verification of the SkySim image-population core

A shallow embedding of the compositing/population engine of SkySim
(`skysim/populate.py` and the image-related parts of `skysim/settings.py`),
together with theorems settling the frozen claims about it.

Conventions of the embedding:

* Python floats are modelled as real numbers (`ℝ`); where a claim only needs
  field arithmetic the definitions are polymorphic over a linear ordered
  field `K` so that witnesses can be evaluated over `ℚ`.
* Catalogue data (magnitudes, coordinates, separations) is modelled over `ℚ`,
  matching the decidable filtering done by the code.
* numpy arrays that are only read/written pointwise (the mutable frame
  buffers) are modelled as total functions from pixel coordinates; the final
  4-D image matrix, whose shape the spec talks about, is materialised as
  nested lists.
* External collaborators (astropy `SkyCoord.separation`, `WCS.to_pixel`, the
  matplotlib colormap) are modelled as function parameters, as the spec
  treats them as black boxes.
-/

namespace SkySim

/-! ## numpy rounding

`np.round` / `ndarray.round` round half to even ("banker's rounding").
`round_columns` in `skysim/utils.py` rounds a column to 5 decimal places.
-/
/-- `np.round` of a real value to an integer: round half to even. -/
noncomputable def npround (x : ℝ) : ℤ :=
  if Int.fract x = 1 / 2 then (if Even ⌊x⌋ then ⌊x⌋ else ⌊x⌋ + 1) else round x

/-- Rounding to 5 decimal places, as `round_columns table ["brightness"]`
(`decimals=5`) does. -/
noncomputable def round5 (x : ℝ) : ℝ := (npround (x * 100000) : ℝ) / 100000

/-! ## numpy min / max of a (nonempty) 1-D array -/
/-- `np.min` of a list of reals (`np.min` raises on an empty array; the
embedding returns a junk value `0` there, and every claim that uses it
assumes nonemptiness). -/
noncomputable def np_min : List ℝ → ℝ
  | [] => 0
  | x :: xs => xs.foldl min x

/-- `np.max` of a list of reals; junk value `0` on the empty array. -/
noncomputable def np_max : List ℝ → ℝ
  | [] => 0
  | x :: xs => xs.foldl max x

/-! ## Brightness scaling (`populate.py`)

`MINIMUM_BRIGHTNESS`, `magnitude_to_flux`, `linear_rescale` and
`get_scaled_brightness`.  The brightness column only depends on the
"magnitude" column, so `get_scaled_brightness` is embedded as the function
from the magnitude column to the brightness column; `prepare_object_table`
below zips that column back onto the rows exactly as the astropy table does.
-/
/-- `MINIMUM_BRIGHTNESS = 0.2` (`populate.py`). -/
noncomputable def MINIMUM_BRIGHTNESS : ℝ := 0.2

/-- `magnitude_to_flux`: `10 ** (-magnitude / 2.5)` (real power). -/
noncomputable def magnitude_to_flux (magnitude : ℝ) : ℝ := (10 : ℝ) ^ (-magnitude / 2.5)

/-- `np.log10`. -/
noncomputable def np_log10 (x : ℝ) : ℝ := Real.logb 10 x

/-- `linear_rescale(data, new_min, new_max)` applied to a 1-D column:
`data_min, data_max = np.min(data), np.max(data)`; a zero range is replaced
by 1; then `(data - data_min) * (new_range / data_range) + new_min`
elementwise. -/
noncomputable def linear_rescale (data : List ℝ) (new_min new_max : ℝ) : List ℝ :=
  let data_min := np_min data
  let data_max := np_max data
  let data_range0 := data_max - data_min
  let data_range := if data_range0 = 0 then 1 else data_range0
  let new_range := new_max - new_min
  data.map (fun x => (x - data_min) * (new_range / data_range) + new_min)

/-- `get_scaled_brightness` as a map from the "magnitude" column to the
"brightness" column: `flux = magnitude_to_flux(magnitude)`;
`brightness = log10(flux)`; `linear_rescale(brightness, 0.2, 1)`; finally
`round_columns(table, ["brightness"])` rounds to 5 decimals. -/
noncomputable def get_scaled_brightness_column (ms : List ℚ) : List ℝ :=
  let flux := ms.map (fun (m : ℚ) => magnitude_to_flux (m : ℝ))
  let brightness := flux.map np_log10
  let rescaled := linear_rescale brightness MINIMUM_BRIGHTNESS 1
  rescaled.map round5

/-! ## Time lookups (`settings.py` / `populate.py`) -/
/-- `np.interp(x, xp, fp)` for a single query point, over a list of
`(xp, fp)` pairs: constant extension below the first and above the last
point, linear interpolation in between.  (`np.interp` raises on an empty
`xp`; the embedding returns the junk value `0` there.) -/
def np_interp (x : ℚ) : List (ℚ × ℚ) → ℚ
  | [] => 0
  | [p] => p.2
  | p :: q :: rest =>
    if x ≤ p.1 then p.2
    else if x ≤ q.1 then p.2 + (x - p.1) * (q.2 - p.2) / (q.1 - p.1)
    else np_interp x (q :: rest)

/-- A naive local wall-clock datetime, as far as the population engine reads
it (`datetime.hour/minute/second/microsecond`). -/
structure LocalTime where
  hour : ℕ
  minute : ℕ
  second : ℕ
  microsecond : ℕ

/-- `get_seconds_from_midnight` (`populate.py`): builds
`timedelta(hours=t.hour, minutes=t.minute, microseconds=t.microsecond)` and
returns `total_seconds()`.  Note the source passes no `seconds=` argument,
so `t.second` does not contribute. -/
def get_seconds_from_midnight (t : LocalTime) : ℚ :=
  3600 * t.hour + 60 * t.minute + t.microsecond / 1000000

/-- The spec's formula for seconds since midnight
(`s = 3600*hour + 60*minute + second + microsecond/1e6`), for comparison. -/
def spec_seconds_from_midnight (t : LocalTime) : ℚ :=
  3600 * t.hour + 60 * t.minute + t.second + t.microsecond / 1000000

/-- `ImageSettings.magnitude_mapping` (`settings.py`): control points
`(hour/24, magnitude_values[index])` from the `magnitude_time_indices`
mapping (a list of `(hour, index)` pairs, in insertion order), evaluated by
`np.interp` on `np.linspace(0, 1, 24*60*60)` (whose `i`-th entry is
`i / 86399`). -/
def magnitude_mapping (tis : List (ℚ × ℕ)) (vals : List ℚ) : List ℚ :=
  let pts := tis.map (fun p => (p.1 / 24, vals.getD p.2 0))
  (List.range (24 * 60 * 60)).map (fun (i : ℕ) => np_interp ((i : ℚ) / (24 * 60 * 60 - 1)) pts)

/-- `get_timed_magnitude` (`populate.py`): index the dense mapping by
`int(get_seconds_from_midnight(t))` (truncation; the value is nonnegative so
this is the floor). -/
def get_timed_magnitude (mapping : List ℚ) (t : LocalTime) : ℚ :=
  mapping.getD (Int.toNat ⌊get_seconds_from_midnight t⌋) 0

/-- `get_timed_background_colour` (`populate.py`): the colormap (an external
matplotlib collaborator, modelled as `bgmap`) evaluated at
`seconds_from_midnight / (24*60*60)`. -/
def get_timed_background_colour {C : Type} (bgmap : ℚ → C) (t : LocalTime) : C :=
  bgmap (get_seconds_from_midnight t / (24 * 60 * 60))

/-! ## The falloff kernel (`settings.py`)

`ImageSettings.area_mesh` spans `[-ceil(K*stddev), ceil(K*stddev)]` in both
axes (`K = MAXIMUM_LIGHT_SPREAD = 10`), as an **integer** mesh
(`np.arange` of ints, so dtype int64).  `ImageSettings.brightness_scale_mesh`
is created by `np.zeros_like(area_mesh[0])` — hence also dtype int64 — and
each assignment `mesh[y, x] = brightness_gaussian(r)` casts the float weight
to an integer (truncation toward zero; the Gaussian is positive, so this is
the floor).
-/
/-- `MAXIMUM_LIGHT_SPREAD = 10` (`settings.py`). -/
def MAXIMUM_LIGHT_SPREAD : ℕ := 10

/-- `ImageSettings.brightness_gaussian`: `exp(-(radius**2) / stddev**2)`. -/
noncomputable def brightness_gaussian (stddev radius : ℝ) : ℝ :=
  Real.exp (-(radius ^ 2) / stddev ^ 2)

/-- The entry of `ImageSettings.brightness_scale_mesh` at offset
`(dx, dy)` from the centre: the radius is `sqrt(dx² + dy²)`
(`radial_distance`), and the Gaussian weight is stored into an int64 mesh,
truncating it to an integer. -/
noncomputable def brightness_scale_mesh_entry (stddev : ℝ) (dx dy : ℤ) : ℤ :=
  ⌊brightness_gaussian stddev (Real.sqrt ((dx : ℝ) ^ 2 + (dy : ℝ) ^ 2))⌋

/-! ### Properties of `linear_rescale` and the brightness column -/
/-- The elementwise function applied by `linear_rescale`. -/
noncomputable def rescale_fun (data : List ℝ) (new_min new_max x : ℝ) : ℝ :=
  (x - np_min data) *
      ((new_max - new_min) /
        (if np_max data - np_min data = 0 then 1 else np_max data - np_min data)) +
    new_min

/-- The magnitude column transformed by `log10 ∘ magnitude_to_flux`. -/
noncomputable def mag_log_column (ms : List ℚ) : List ℝ :=
  ms.map (fun (m : ℚ) => -(m : ℝ) / 2.5)

/-! ## The frame compositor (`populate.py`)

Pixel buffers (`FloatArray` of shape `(3, X, Y)`) are modelled as total
functions from `ℤ × ℤ` pixel coordinates to RGB triples; every read and
write the code performs is guarded by `pixel_in_frame`, so the buffer is
only ever accessed inside `[0, image_pixels)²`.  Python floats are modelled
by an arbitrary linear ordered field `K` (instantiated at `ℝ` for the full
pipeline and at `ℚ` for concrete witnesses).
-/
/-- An RGB triple. -/
abbrev RGB (K : Type) : Type := K × K × K

/-- A single frame buffer `frame[:, x, y]`. -/
abbrev Frame (K : Type) : Type := ℤ × ℤ → RGB K

/-- The sum of the three channel values of a pixel. -/
def sum_rgb {K : Type} [LinearOrderedField K] (c : RGB K) : K := c.1 + c.2.1 + c.2.2

/-- `pixel_in_frame(xy, image_pixels)`:
`0 <= xy[0] < image_pixels and 0 <= xy[1] < image_pixels`. -/
def pixel_in_frame (xy : ℤ × ℤ) (image_pixels : ℤ) : Bool :=
  (decide (0 ≤ xy.1) && decide (xy.1 < image_pixels)) &&
    (decide (0 ≤ xy.2) && decide (xy.2 < image_pixels))

/-- `np.average([a, b], weights=[w1, w2], axis=0)`: the weighted sum divided
by the sum of the weights, per channel. -/
def np_average2 {K : Type} [LinearOrderedField K] (w1 w2 : K) (a b : RGB K) : RGB K :=
  ((w1 * a.1 + w2 * b.1) / (w1 + w2),
    (w1 * a.2.1 + w2 * b.2.1) / (w1 + w2),
    (w1 * a.2.2 + w2 * b.2.2) / (w1 + w2))

/-- In-place assignment `frame[:, *frame_xy] = new_rgb`. -/
def updatePixel {K : Type} (f : Frame K) (p : ℤ × ℤ) (v : RGB K) : Frame K :=
  fun q => if q = p then v else f q

/-- A row of the per-frame object table as `add_object_to_frame` reads it:
integer pixel coordinates `x`, `y`, a `brightness` and an `rgb` colour. -/
structure ObjRow (K : Type) where
  x : ℤ
  y : ℤ
  brightness : K
  rgb : RGB K

/-- `add_object_to_frame(object_row, frame, area_mesh, brightness_scale_mesh)`:
for every offset of the kernel mesh, the absolute pixel is
`offset + (row.x, row.y)`; if it is inside the frame, the pixel is replaced
by the `np.average` blend of the object colour and the existing colour with
weights `[weight, 1 - weight]`, `weight = brightness_scale_mesh[offset] *
row.brightness`; otherwise nothing happens.  The mesh is passed as its list
of offsets `offsets` and its weight lookup `wt`. -/
def add_object_to_frame {K : Type} [LinearOrderedField K] (row : ObjRow K) (frame : Frame K)
    (offsets : List (ℤ × ℤ)) (wt : ℤ × ℤ → K) (image_pixels : ℤ) : Frame K :=
  offsets.foldl
    (fun fr off =>
      if pixel_in_frame (off.1 + row.x, off.2 + row.y) image_pixels then
        updatePixel fr (off.1 + row.x, off.2 + row.y)
          (np_average2 (wt off * row.brightness) (1 - wt off * row.brightness) row.rgb
            (fr (off.1 + row.x, off.2 + row.y)))
      else fr)
    frame

/-- `fill_frame_background(colour, frame_matrix)`: every pixel of the result
is the given colour (the input buffer only supplies the shape). -/
def fill_frame_background {K : Type} (colour : RGB K) (frame_matrix : Frame K) : Frame K :=
  fun _ => colour

/-- `get_empty_image(frames, image_pixels)`: all-zero frames. -/
def get_empty_image (K : Type) [LinearOrderedField K] : ℕ → Frame K :=
  fun _ => fun _ => ((0 : K), (0 : K), (0 : K))

/-! ## Object table preparation (`populate.py`)

Catalogue rows carry the columns the code reads.  The angular separation
from the current frame's pointing (computed by the astropy collaborator
`SkyCoord.separation` inside `filter_objects_fov`) is carried as a
precomputed field.  `prepare_object_table` drops the `id`, `magnitude`,
`spectral_type` and `skycoord` columns at the end; the embedding keeps
`magnitude` and `separation` in the output record purely so that the spec's
invariants about the surviving records can be stated — no later computation
reads them. -/
/-- A row of the combined star/planet catalogue. -/
structure CatRow where
  id : ℕ
  ra : ℚ
  dec : ℚ
  magnitude : ℚ
  spectral_type : String
deriving DecidableEq

/-- `filter_objects_brightness`: keep rows with
`magnitude <= maximum_magnitude`. -/
def filter_objects_brightness (maximum_magnitude : ℚ) (objects_table : List CatRow) :
    List CatRow :=
  objects_table.filter (fun r => r.magnitude ≤ maximum_magnitude)

/-- `filter_objects_fov(radec, fov, objects_table)`: keep rows whose angular
separation from the pointing `radec` is `<= fov / 2 * 1.01` (the 1% buffer).
The astropy spherical geometry `objects_table["skycoord"].separation(radec)`
is an external collaborator, modelled by the function `separation`. -/
def filter_objects_fov (separation : CatRow → ℚ) (fov : ℚ) (objects_table : List CatRow) :
    List CatRow :=
  objects_table.filter (fun r => separation r ≤ fov / 2 * 1.01)

/-- A row of the prepared per-frame object table. -/
structure PreparedRow where
  ra : ℚ
  dec : ℚ
  magnitude : ℚ
  separation : ℚ
  brightness : ℝ
  rgb : RGB ℝ

/-- `prepare_object_table(image_settings, star_table, planet_tables, frame)`
for one frame: `vstack` the star table with the frame's planet table, filter
by the frame's magnitude threshold, filter by field of view, return empty
immediately if nothing survives, otherwise attach the scaled brightness
column and the colour looked up from `object_colours` by spectral type. -/
noncomputable def prepare_object_table (maximum_magnitude : ℚ) (separation : CatRow → ℚ)
    (fov : ℚ) (object_colours : String → RGB ℝ) (star_table planet_table : List CatRow) :
    List PreparedRow :=
  let t0 := star_table ++ planet_table
  let t1 := filter_objects_brightness maximum_magnitude t0
  let t2 := filter_objects_fov separation fov t1
  if t2.isEmpty then []
  else
    List.zipWith
      (fun r b =>
        { ra := r.ra, dec := r.dec, magnitude := r.magnitude, separation := separation r,
          brightness := b, rgb := object_colours r.spectral_type })
      t2 (get_scaled_brightness_column (t2.map (fun r => r.magnitude)))

/-! ## The worker-pool dispatch / reassembly (`create_image_matrix`)

`pool.starmap(fill_frame_objects, [(i, ...) for i in range(frames) if
len(object_tables[i]) > 0])` produces `(index, filled_frame)` pairs which are
then written back into the matrix slot named by the index.  `tasks` builds
the dispatched list (in frame order), `reinsert` is the write-back loop, and
`sequential_fill` is the strictly sequential reference execution.  Frames
and buffers are abstract (`α`), the per-frame worker is an arbitrary
deterministic function. -/
/-- The dispatched `(index, result)` pairs, in dispatch order. -/
def tasks {α β : Type} (worker : ℕ → α → α) (tables : ℕ → List β) (mat : ℕ → α)
    (frames : ℕ) : List (ℕ × α) :=
  ((List.range frames).filter (fun i => decide (0 < (tables i).length))).map
    (fun i => (i, worker i (mat i)))

/-- `for index, frame in filled_frames: image_matrix[index] = frame`. -/
def reinsert {α : Type} (mat : ℕ → α) (results : List (ℕ × α)) : ℕ → α :=
  results.foldl (fun m p => fun j => if j = p.1 then p.2 else m j) mat

/-- The strictly sequential reference: process frames in order, updating
each nonempty frame's slot in place. -/
def sequential_fill {α β : Type} (worker : ℕ → α → α) (tables : ℕ → List β) (mat : ℕ → α)
    (frames : ℕ) : ℕ → α :=
  (List.range frames).foldl
    (fun m i =>
      if 0 < (tables i).length then fun j => if j = i then worker i (m i) else m j else m)
    mat

/-! ## Per-frame compositing worker and the full pipeline -/
/-- `fill_frame_objects(index, frame, objects_table, image_settings, ...)`:
projects every row's `(ra, dec)` to raw pixel coordinates through the
frame's WCS (`to_pixel`, an external collaborator modelled by `projI`),
applies `np.round` and the `np.flipud` axis swap (`x` is the rounded second
raw coordinate, `y` the rounded first), and folds `add_object_to_frame` over
the table.  The caller (`tasks`) pairs the result with its frame index. -/
noncomputable def fill_frame_objects (projI : ℚ × ℚ → ℝ × ℝ)
    (objects_table : List PreparedRow) (frame : Frame ℝ) (offsets : List (ℤ × ℤ))
    (wt : ℤ × ℤ → ℝ) (image_pixels : ℤ) : Frame ℝ :=
  objects_table.foldl
    (fun fr r =>
      add_object_to_frame
        { x := npround (projI (r.ra, r.dec)).2, y := npround (projI (r.ra, r.dec)).1,
          brightness := r.brightness, rgb := r.rgb }
        fr offsets wt image_pixels)
    frame

/-- Channel `c` of an RGB value (`frame[c, x, y]`). -/
def channel {K : Type} (c : ℕ) (v : RGB K) : K :=
  match c with
  | 0 => v.1
  | 1 => v.2.1
  | _ => v.2.2

/-- Materialisation of the function-modelled frame buffers as the numpy
array of shape `(frames, 3, image_pixels, image_pixels)`: entry
`[f][c][x][y]` is channel `c` of `mat f (x, y)`. -/
def materialize {K : Type} (frames image_pixels : ℕ) (mat : ℕ → Frame K) :
    List (List (List (List K))) :=
  (List.range frames).map (fun f =>
    (List.range 3).map (fun c =>
      (List.range image_pixels).map (fun (x : ℕ) =>
        (List.range image_pixels).map (fun (y : ℕ) => channel c (mat f ((x : ℤ), (y : ℤ)))))))

/-- `np.moveaxis(m, 1, -1)` on a 4-D nested list: per frame block, the
leading (channel) axis moves to the end: entry `[x][y][c]` of the new block
is entry `[c][x][y]` of the old one. -/
def np_moveaxis_1_last {K : Type} [LinearOrderedField K] (m : List (List (List (List K)))) :
    List (List (List (List K))) :=
  m.map (fun fr =>
    (List.range (fr.getD 0 []).length).map (fun x =>
      (List.range ((fr.getD 0 []).getD 0 []).length).map (fun y =>
        fr.map (fun ch => (ch.getD x []).getD y 0))))

/-- `np.flip(m, axis=2)` on a 4-D nested list: reverse the third axis. -/
def np_flip_axis2 {K : Type} (m : List (List (List (List K)))) :
    List (List (List (List K))) :=
  m.map (fun fr => fr.map (fun row => row.reverse))

/-- The background-filled frames of `create_image_matrix`: the loop
`image_matrix[i] = fill_frame_background(get_timed_background_colour(...),
image_matrix[i])` over the zero image from `get_empty_image`. -/
def image_backgrounds (bgmap : ℚ → RGB ℝ) (local_datetimes : ℕ → LocalTime) :
    ℕ → Frame ℝ :=
  fun i =>
    fill_frame_background (get_timed_background_colour bgmap (local_datetimes i))
      (get_empty_image ℝ i)

/-- The per-frame prepared object tables of `create_image_matrix`. -/
noncomputable def image_object_tables (tis : List (ℚ × ℕ)) (vals : List ℚ)
    (local_datetimes : ℕ → LocalTime) (separation : ℕ → CatRow → ℚ) (fov : ℚ)
    (object_colours : String → RGB ℝ) (star_table : List CatRow)
    (planet_tables : ℕ → List CatRow) : ℕ → List PreparedRow :=
  fun i =>
    prepare_object_table (get_timed_magnitude (magnitude_mapping tis vals) (local_datetimes i))
      (separation i) fov object_colours star_table (planet_tables i)

/-- The per-frame compositing worker dispatched to the pool. -/
noncomputable def image_worker (proj : ℕ → ℚ × ℚ → ℝ × ℝ) (offsets : List (ℤ × ℤ))
    (wt : ℤ × ℤ → ℝ) (image_pixels : ℤ) (object_tables : ℕ → List PreparedRow) :
    ℕ → Frame ℝ → Frame ℝ :=
  fun i fr => fill_frame_objects (proj i) (object_tables i) fr offsets wt image_pixels

/-- `create_image_matrix(image_settings, planet_tables, star_table, ...)`:
allocate the zero image, fill every frame's background from the colour map
at that frame's local time, prepare the per-frame object tables, dispatch
the nonempty frames to the pool (`tasks`), write the results back by index
(`reinsert`), then move the channel axis to the end and flip the second
spatial axis.  The `ImageSettings` fields and collaborators appear as
parameters: `bgmap` (the colormap), `tis`/`vals` (the magnitude control
points), `local_datetimes`, `separation` (per-frame astropy separation),
`fov`, `object_colours`, `proj` (per-frame WCS `to_pixel`), and the kernel
(`offsets`, `wt`). -/
noncomputable def create_image_matrix (frames image_pixels : ℕ) (bgmap : ℚ → RGB ℝ)
    (tis : List (ℚ × ℕ)) (vals : List ℚ) (local_datetimes : ℕ → LocalTime)
    (separation : ℕ → CatRow → ℚ) (fov : ℚ) (object_colours : String → RGB ℝ)
    (star_table : List CatRow) (planet_tables : ℕ → List CatRow)
    (proj : ℕ → ℚ × ℚ → ℝ × ℝ) (offsets : List (ℤ × ℤ)) (wt : ℤ × ℤ → ℝ) :
    List (List (List (List ℝ))) :=
  let backgrounds := image_backgrounds bgmap local_datetimes
  let object_tables := image_object_tables tis vals local_datetimes separation fov
    object_colours star_table planet_tables
  let worker := image_worker proj offsets wt (image_pixels : ℤ) object_tables
  let filled := reinsert backgrounds (tasks worker object_tables backgrounds frames)
  np_flip_axis2 (np_moveaxis_1_last (materialize frames image_pixels filled))

/-! ### Range invariants for the pipeline -/
/-- All three channels lie in `[0, 1]`. -/
def rgb01 {K : Type} [LinearOrderedField K] (c : RGB K) : Prop :=
  (0 ≤ c.1 ∧ c.1 ≤ 1) ∧ (0 ≤ c.2.1 ∧ c.2.1 ≤ 1) ∧ (0 ≤ c.2.2 ∧ c.2.2 ≤ 1)

/-- The concrete two-row catalogue of the spec's threshold-inclusivity
scenario: one record at exactly the magnitude threshold 5.0, one just above
it at 5.0001; both at the pointing centre (separation 0). -/
def scenario_star_table : List CatRow :=
  [{ id := 1, ra := 0, dec := 0, magnitude := 5, spectral_type := "A" },
    { id := 2, ra := 0, dec := 0, magnitude := 5.0001, spectral_type := "A" }]

/-! ## Theorems -/

theorem npround_intCast (n : ℤ) : npround (n : ℝ) = n := by
  unfold npround
  rw [Int.fract_intCast]
  norm_num

theorem npround_bounds (x : ℝ) : x - 1 / 2 ≤ (npround x : ℝ) ∧ (npround x : ℝ) ≤ x + 1 / 2 := by
  unfold npround
  by_cases h : Int.fract x = 1 / 2
  · have hfl : (⌊x⌋ : ℝ) = x - 1 / 2 := by
      have hfr : x - ⌊x⌋ = 1 / 2 := by
        rw [Int.self_sub_floor]
        exact h
      linarith
    by_cases he : Even ⌊x⌋ <;> simp [h, he, hfl] <;> linarith
  · have hb := abs_sub_round x
    rw [abs_le] at hb
    simp only [h, if_false]
    constructor <;> linarith [hb.1, hb.2]

theorem npround_mono {x y : ℝ} (hxy : x ≤ y) : npround x ≤ npround y := by
  by_contra hlt
  push_neg at hlt
  have h1 : (npround y : ℝ) + 1 ≤ (npround x : ℝ) := by
    exact_mod_cast Int.add_one_le_iff.mpr hlt
  have bx := npround_bounds x
  have hy := npround_bounds y
  have hxeq : x = y := by linarith [bx.1, bx.2, hy.1, hy.2]
  rw [hxeq] at hlt
  exact lt_irrefl _ hlt

theorem round5_eq_self {x : ℝ} (n : ℤ) (h : x * 100000 = (n : ℝ)) : round5 x = x := by
  unfold round5
  rw [h, npround_intCast]
  field_simp
  linarith [h]

theorem round5_mono {x y : ℝ} (hxy : x ≤ y) : round5 x ≤ round5 y := by
  unfold round5
  have := npround_mono (x := x * 100000) (y := y * 100000) (by nlinarith)
  have hc : (npround (x * 100000) : ℝ) ≤ (npround (y * 100000) : ℝ) := by exact_mod_cast this
  linarith

theorem round5_min_brightness : round5 (0.2 : ℝ) = 0.2 :=
  round5_eq_self 20000 (by norm_num)

theorem round5_one : round5 (1 : ℝ) = 1 :=
  round5_eq_self 100000 (by norm_num)

theorem foldl_min_le_acc (xs : List ℝ) (a : ℝ) : xs.foldl min a ≤ a := by
  induction xs generalizing a with
  | nil => simp
  | cons x xs ih => exact le_trans (ih (min a x)) (min_le_left a x)

theorem foldl_min_le_mem (xs : List ℝ) (a b : ℝ) (hb : b ∈ xs) : xs.foldl min a ≤ b := by
  induction xs generalizing a with
  | nil => simp at hb
  | cons x xs ih =>
    rcases List.mem_cons.mp hb with h | h
    · subst h
      exact le_trans (foldl_min_le_acc xs (min a b)) (min_le_right a b)
    · exact ih (min a x) h

theorem foldl_min_mem (xs : List ℝ) (a : ℝ) : xs.foldl min a = a ∨ xs.foldl min a ∈ xs := by
  induction xs generalizing a with
  | nil => simp
  | cons x xs ih =>
    rcases ih (min a x) with h | h
    · rcases min_cases a x with ⟨hm, _⟩ | ⟨hm, _⟩
      · left
        simpa [hm] using h
      · right
        rw [List.foldl_cons, h, hm]
        exact List.mem_cons_self x xs
    · right
      exact List.mem_cons_of_mem x h

theorem acc_le_foldl_max (xs : List ℝ) (a : ℝ) : a ≤ xs.foldl max a := by
  induction xs generalizing a with
  | nil => simp
  | cons x xs ih => exact le_trans (le_max_left a x) (ih (max a x))

theorem mem_le_foldl_max (xs : List ℝ) (a b : ℝ) (hb : b ∈ xs) : b ≤ xs.foldl max a := by
  induction xs generalizing a with
  | nil => simp at hb
  | cons x xs ih =>
    rcases List.mem_cons.mp hb with h | h
    · subst h
      exact le_trans (le_max_right a b) (acc_le_foldl_max xs (max a b))
    · exact ih (max a x) h

theorem foldl_max_mem (xs : List ℝ) (a : ℝ) : xs.foldl max a = a ∨ xs.foldl max a ∈ xs := by
  induction xs generalizing a with
  | nil => simp
  | cons x xs ih =>
    rcases ih (max a x) with h | h
    · rcases max_cases a x with ⟨hm, _⟩ | ⟨hm, _⟩
      · left
        simpa [hm] using h
      · right
        rw [List.foldl_cons, h, hm]
        exact List.mem_cons_self x xs
    · right
      exact List.mem_cons_of_mem x h

theorem np_min_le {l : List ℝ} {b : ℝ} (hb : b ∈ l) : np_min l ≤ b := by
  cases l with
  | nil => simp at hb
  | cons x xs =>
    rcases List.mem_cons.mp hb with h | h
    · subst h
      exact foldl_min_le_acc xs b
    · exact foldl_min_le_mem xs x b h

theorem le_np_max {l : List ℝ} {b : ℝ} (hb : b ∈ l) : b ≤ np_max l := by
  cases l with
  | nil => simp at hb
  | cons x xs =>
    rcases List.mem_cons.mp hb with h | h
    · subst h
      exact acc_le_foldl_max xs b
    · exact mem_le_foldl_max xs x b h

theorem np_min_mem {l : List ℝ} (h : l ≠ []) : np_min l ∈ l := by
  cases l with
  | nil => exact absurd rfl h
  | cons x xs =>
    rcases foldl_min_mem xs x with h' | h'
    · rw [np_min, h']
      exact List.mem_cons_self x xs
    · exact List.mem_cons_of_mem x h'

theorem np_max_mem {l : List ℝ} (h : l ≠ []) : np_max l ∈ l := by
  cases l with
  | nil => exact absurd rfl h
  | cons x xs =>
    rcases foldl_max_mem xs x with h' | h'
    · rw [np_max, h']
      exact List.mem_cons_self x xs
    · exact List.mem_cons_of_mem x h'

theorem np_min_le_np_max {l : List ℝ} (h : l ≠ []) : np_min l ≤ np_max l :=
  le_trans (np_min_le (np_max_mem h)) (le_refl _)

theorem round5_MINIMUM_BRIGHTNESS : round5 MINIMUM_BRIGHTNESS = MINIMUM_BRIGHTNESS := by
  unfold MINIMUM_BRIGHTNESS
  exact round5_min_brightness

theorem MINIMUM_BRIGHTNESS_le_one : MINIMUM_BRIGHTNESS ≤ 1 := by
  unfold MINIMUM_BRIGHTNESS
  norm_num

theorem np_log10_flux (m : ℚ) : np_log10 (magnitude_to_flux (m : ℝ)) = -(m : ℝ) / 2.5 := by
  unfold np_log10 magnitude_to_flux
  exact Real.logb_rpow (by norm_num) (by norm_num)

/-- The composite `log10 ∘ magnitude_to_flux` column is just `-m / 2.5`. -/
theorem flux_log_column (ms : List ℚ) :
    (ms.map (fun (m : ℚ) => magnitude_to_flux (m : ℝ))).map np_log10 =
      ms.map (fun (m : ℚ) => -(m : ℝ) / 2.5) := by
  induction ms with
  | nil => simp
  | cons m t ih =>
    have hstep :
        ((m :: t).map (fun (m : ℚ) => magnitude_to_flux (m : ℝ))).map np_log10 =
          np_log10 (magnitude_to_flux (m : ℝ)) ::
            ((t.map (fun (m : ℚ) => magnitude_to_flux (m : ℝ))).map np_log10) := rfl
    rw [hstep, np_log10_flux m, ih]
    rfl

theorem linear_rescale_eq_map (data : List ℝ) (a b : ℝ) :
    linear_rescale data a b = data.map (rescale_fun data a b) := rfl

theorem rescale_range_pos (data : List ℝ) (hd : data ≠ []) :
    0 < (if np_max data - np_min data = 0 then 1 else np_max data - np_min data) := by
  by_cases h : np_max data - np_min data = 0
  · simp [h]
  · have := np_min_le_np_max hd
    simp only [h, if_false]
    cases lt_or_eq_of_le this with
    | inl hlt => linarith
    | inr heq => exact absurd (by linarith) h

theorem rescale_fun_mono (data : List ℝ) (hd : data ≠ []) {a b : ℝ} (hab : a ≤ b)
    {x y : ℝ} (hxy : x ≤ y) : rescale_fun data a b x ≤ rescale_fun data a b y := by
  unfold rescale_fun
  have hrng := rescale_range_pos data hd
  have hmul : 0 ≤ (b - a) / (if np_max data - np_min data = 0 then 1
      else np_max data - np_min data) := div_nonneg (by linarith) (le_of_lt hrng)
  have := mul_le_mul_of_nonneg_right (sub_le_sub_right hxy (np_min data)) hmul
  linarith

theorem rescale_fun_at_min (data : List ℝ) (a b : ℝ) :
    rescale_fun data a b (np_min data) = a := by
  unfold rescale_fun
  simp

theorem rescale_fun_at_max (data : List ℝ) (a b : ℝ)
    (hnd : np_max data - np_min data ≠ 0) :
    rescale_fun data a b (np_max data) = b := by
  unfold rescale_fun
  rw [if_neg hnd]
  field_simp

theorem rescale_fun_degenerate (data : List ℝ) (a b : ℝ)
    (hdeg : np_max data - np_min data = 0) {x : ℝ} (hx : x ∈ data) :
    rescale_fun data a b x = a := by
  have h1 := np_min_le hx
  have h2 := le_np_max hx
  have hx' : x = np_min data := by linarith
  rw [hx']
  exact rescale_fun_at_min data a b

theorem rescale_fun_bounds (data : List ℝ) (hd : data ≠ []) {a b : ℝ} (hab : a ≤ b)
    {x : ℝ} (hx : x ∈ data) :
    a ≤ rescale_fun data a b x ∧ rescale_fun data a b x ≤ b := by
  constructor
  · have := rescale_fun_mono data hd hab (np_min_le hx)
    rw [rescale_fun_at_min] at this
    exact this
  · by_cases hdeg : np_max data - np_min data = 0
    · rw [rescale_fun_degenerate data a b hdeg hx]
      exact hab
    · have := rescale_fun_mono data hd hab (le_np_max hx)
      rw [rescale_fun_at_max data a b hdeg] at this
      exact this

theorem get_scaled_brightness_column_eq (ms : List ℚ) :
    get_scaled_brightness_column ms =
      (mag_log_column ms).map
        (fun x => round5 (rescale_fun (mag_log_column ms) MINIMUM_BRIGHTNESS 1 x)) := by
  show (linear_rescale ((ms.map (fun (m : ℚ) => magnitude_to_flux (m : ℝ))).map np_log10)
      MINIMUM_BRIGHTNESS 1).map round5 = _
  rw [flux_log_column, linear_rescale_eq_map, List.map_map]
  rfl

theorem mag_log_column_ne_nil {ms : List ℚ} (h : ms ≠ []) : mag_log_column ms ≠ [] := by
  unfold mag_log_column
  simpa using h

/-- Every entry of the brightness column lies in `[MINIMUM_BRIGHTNESS, 1]`
(including the degenerate all-equal case). -/
theorem scaled_brightness_bounds {ms : List ℚ} (hne : ms ≠ []) :
    ∀ y ∈ get_scaled_brightness_column ms, MINIMUM_BRIGHTNESS ≤ y ∧ y ≤ 1 := by
  intro y hy
  rw [get_scaled_brightness_column_eq] at hy
  obtain ⟨x, hx, rfl⟩ := List.mem_map.mp hy
  have hb := rescale_fun_bounds (mag_log_column ms) (mag_log_column_ne_nil hne)
    MINIMUM_BRIGHTNESS_le_one hx
  constructor
  · calc MINIMUM_BRIGHTNESS = round5 MINIMUM_BRIGHTNESS := round5_MINIMUM_BRIGHTNESS.symm
    _ ≤ round5 (rescale_fun (mag_log_column ms) MINIMUM_BRIGHTNESS 1 x) := round5_mono hb.1
  · calc round5 (rescale_fun (mag_log_column ms) MINIMUM_BRIGHTNESS 1 x) ≤ round5 1 :=
          round5_mono hb.2
    _ = 1 := round5_one

theorem scaled_brightness_ne_nil {ms : List ℚ} (hne : ms ≠ []) :
    get_scaled_brightness_column ms ≠ [] := by
  rw [get_scaled_brightness_column_eq]
  simpa using mag_log_column_ne_nil hne

/-- `np.min` of the brightness column is exactly `MINIMUM_BRIGHTNESS`. -/
theorem scaled_brightness_min {ms : List ℚ} (hne : ms ≠ []) :
    np_min (get_scaled_brightness_column ms) = MINIMUM_BRIGHTNESS := by
  have hmem : MINIMUM_BRIGHTNESS ∈ get_scaled_brightness_column ms := by
    rw [get_scaled_brightness_column_eq]
    refine List.mem_map.mpr
      ⟨np_min (mag_log_column ms), np_min_mem (mag_log_column_ne_nil hne), ?_⟩
    rw [rescale_fun_at_min]
    exact round5_MINIMUM_BRIGHTNESS
  apply le_antisymm (np_min_le hmem)
  exact (scaled_brightness_bounds hne _ (np_min_mem (scaled_brightness_ne_nil hne))).1

/-- In the non-degenerate case the range of the `mag_log_column` is nonzero. -/
theorem mag_log_column_range_ne_zero {ms : List ℚ}
    (hnd : ∃ a ∈ ms, ∃ b ∈ ms, a ≠ b) :
    np_max (mag_log_column ms) - np_min (mag_log_column ms) ≠ 0 := by
  obtain ⟨a, ha, b, hb, hab⟩ := hnd
  intro hdeg
  have haa : (-(a : ℝ) / 2.5) ∈ mag_log_column ms := by
    unfold mag_log_column
    exact List.mem_map_of_mem _ ha
  have hbb : (-(b : ℝ) / 2.5) ∈ mag_log_column ms := by
    unfold mag_log_column
    exact List.mem_map_of_mem _ hb
  have h1 := np_min_le haa
  have h2 := le_np_max haa
  have h3 := np_min_le hbb
  have h4 := le_np_max hbb
  have heq : -(a : ℝ) / 2.5 = -(b : ℝ) / 2.5 := by linarith
  field_simp at heq
  rcases heq with h | h
  · exact hab h
  · norm_num at h

/-- `np.max` of the brightness column is exactly `1` in the non-degenerate
case. -/
theorem scaled_brightness_max {ms : List ℚ} (hne : ms ≠ [])
    (hnd : ∃ a ∈ ms, ∃ b ∈ ms, a ≠ b) :
    np_max (get_scaled_brightness_column ms) = 1 := by
  have hmem : (1 : ℝ) ∈ get_scaled_brightness_column ms := by
    rw [get_scaled_brightness_column_eq]
    refine List.mem_map.mpr
      ⟨np_max (mag_log_column ms), np_max_mem (mag_log_column_ne_nil hne), ?_⟩
    rw [rescale_fun_at_max _ _ _ (mag_log_column_range_ne_zero hnd), round5_one]
  apply le_antisymm
  · exact (scaled_brightness_bounds hne _ (np_max_mem (scaled_brightness_ne_nil hne))).2
  · exact le_np_max hmem

theorem scaled_brightness_length (ms : List ℚ) :
    (get_scaled_brightness_column ms).length = ms.length := by
  rw [get_scaled_brightness_column_eq]
  unfold mag_log_column
  simp

/-- Pointwise formula for the brightness column. -/
theorem scaled_brightness_getD (ms : List ℚ) (i : ℕ) (hi : i < ms.length) :
    (get_scaled_brightness_column ms).getD i 0 =
      round5 (rescale_fun (mag_log_column ms) MINIMUM_BRIGHTNESS 1
        (-(ms.get ⟨i, hi⟩ : ℝ) / 2.5)) := by
  rw [get_scaled_brightness_column_eq]
  have hlen : i < ((mag_log_column ms).map
      (fun x => round5 (rescale_fun (mag_log_column ms) MINIMUM_BRIGHTNESS 1 x))).length := by
    unfold mag_log_column
    simpa using hi
  rw [List.getD_eq_getElem _ _ hlen, List.getElem_map]
  unfold mag_log_column
  rw [List.getElem_map]
  rfl

theorem mag_log_mem (ms : List ℚ) (i : ℕ) (hi : i < ms.length) :
    (-(ms.get ⟨i, hi⟩ : ℝ) / 2.5) ∈ mag_log_column ms := by
  unfold mag_log_column
  exact List.mem_map_of_mem (fun (m : ℚ) => -(m : ℝ) / 2.5) (ms.get_mem i hi)

theorem offset_pixel_injective (row_x row_y : ℤ) {o o' : ℤ × ℤ}
    (h : (o.1 + row_x, o.2 + row_y) = (o'.1 + row_x, o'.2 + row_y)) : o = o' := by
  have h1 : o.1 + row_x = o'.1 + row_x := congrArg Prod.fst h
  have h2 : o.2 + row_y = o'.2 + row_y := congrArg Prod.snd h
  have := add_right_cancel h1
  have := add_right_cancel h2
  exact Prod.ext (by assumption) (by assumption)

/-- A pixel not reachable from any kernel offset is never modified
(no wraparound, no clamping). -/
theorem add_object_untouched {K : Type} [LinearOrderedField K] (row : ObjRow K)
    (frame : Frame K) (offsets : List (ℤ × ℤ)) (wt : ℤ × ℤ → K) (px : ℤ) (q : ℤ × ℤ)
    (hq : ∀ off ∈ offsets, q ≠ (off.1 + row.x, off.2 + row.y)) :
    add_object_to_frame row frame offsets wt px q = frame q := by
  induction offsets generalizing frame with
  | nil => rfl
  | cons o rest ih =>
    unfold add_object_to_frame
    rw [List.foldl_cons]
    by_cases hin : pixel_in_frame (o.1 + row.x, o.2 + row.y) px
    · rw [if_pos hin]
      have hrec := ih (updatePixel frame (o.1 + row.x, o.2 + row.y)
        (np_average2 (wt o * row.brightness) (1 - wt o * row.brightness) row.rgb
          (frame (o.1 + row.x, o.2 + row.y))))
        (fun off hoff => hq off (List.mem_cons_of_mem o hoff))
      unfold add_object_to_frame at hrec
      rw [hrec]
      unfold updatePixel
      rw [if_neg (hq o (List.mem_cons_self o rest))]
    · rw [if_neg hin]
      exact ih frame (fun off hoff => hq off (List.mem_cons_of_mem o hoff))

/-- Pointwise behaviour of `add_object_to_frame` at the pixel reached from a
given kernel offset: in-frame pixels are replaced by the convex blend of the
object colour with the previous value; out-of-frame pixels are skipped. -/
theorem add_object_at_offset {K : Type} [LinearOrderedField K] (row : ObjRow K)
    (frame : Frame K) (wt : ℤ × ℤ → K) (px : ℤ) {offsets : List (ℤ × ℤ)}
    (hnd : offsets.Nodup) {off : ℤ × ℤ} (hoff : off ∈ offsets) :
    add_object_to_frame row frame offsets wt px (off.1 + row.x, off.2 + row.y) =
      (if pixel_in_frame (off.1 + row.x, off.2 + row.y) px then
        np_average2 (wt off * row.brightness) (1 - wt off * row.brightness) row.rgb
          (frame (off.1 + row.x, off.2 + row.y))
      else frame (off.1 + row.x, off.2 + row.y)) := by
  induction offsets generalizing frame with
  | nil => simp at hoff
  | cons o rest ih =>
    have hnotail : o ∉ rest := (List.nodup_cons.mp hnd).1
    have hndtail : rest.Nodup := (List.nodup_cons.mp hnd).2
    rcases List.mem_cons.mp hoff with hcase | hcase
    · subst hcase
      unfold add_object_to_frame
      rw [List.foldl_cons]
      have huntouched : ∀ fr : Frame K,
          List.foldl
            (fun fr off =>
              if pixel_in_frame (off.1 + row.x, off.2 + row.y) px then
                updatePixel fr (off.1 + row.x, off.2 + row.y)
                  (np_average2 (wt off * row.brightness) (1 - wt off * row.brightness) row.rgb
                    (fr (off.1 + row.x, off.2 + row.y)))
              else fr)
            fr rest (off.1 + row.x, off.2 + row.y) = fr (off.1 + row.x, off.2 + row.y) := by
        intro fr
        have := add_object_untouched row fr rest wt px (off.1 + row.x, off.2 + row.y)
          (fun o' ho' hcontra =>
            hnotail (by rw [offset_pixel_injective row.x row.y hcontra]; exact ho'))
        unfold add_object_to_frame at this
        exact this
      by_cases hin : pixel_in_frame (off.1 + row.x, off.2 + row.y) px
      · rw [if_pos hin, huntouched, if_pos hin]
        unfold updatePixel
        rw [if_pos rfl]
      · rw [if_neg hin, huntouched, if_neg hin]
    · have hne : (off.1 + row.x, off.2 + row.y) ≠ (o.1 + row.x, o.2 + row.y) := by
        intro hcontra
        exact hnotail (by rw [← offset_pixel_injective row.x row.y hcontra]; exact hcase)
      unfold add_object_to_frame
      rw [List.foldl_cons]
      by_cases hin : pixel_in_frame (o.1 + row.x, o.2 + row.y) px
      · rw [if_pos hin]
        have hrec := ih (updatePixel frame (o.1 + row.x, o.2 + row.y)
          (np_average2 (wt o * row.brightness) (1 - wt o * row.brightness) row.rgb
            (frame (o.1 + row.x, o.2 + row.y)))) hndtail hcase
        unfold add_object_to_frame at hrec
        rw [hrec]
        unfold updatePixel
        rw [if_neg hne]
      · rw [if_neg hin]
        have hrec := ih frame hndtail hcase
        unfold add_object_to_frame at hrec
        rw [hrec]

theorem mem_zipWith {α β γ : Type} {f : α → β → γ} :
    ∀ {as : List α} {bs : List β} {c : γ}, c ∈ List.zipWith f as bs →
      ∃ a ∈ as, ∃ b ∈ bs, c = f a b := by
  intro as
  induction as with
  | nil => intro bs c h; simp at h
  | cons a as ih =>
    intro bs c h
    cases bs with
    | nil => simp at h
    | cons b bs =>
      rw [List.zipWith_cons_cons] at h
      rcases List.mem_cons.mp h with h | h
      · exact ⟨a, List.mem_cons_self a as, b, List.mem_cons_self b bs, h⟩
      · obtain ⟨a', ha', b', hb', hc⟩ := ih h
        exact ⟨a', List.mem_cons_of_mem a ha', b', List.mem_cons_of_mem b hb', hc⟩

/-- Decomposition of membership in the prepared table: every output row is
built from a surviving catalogue row and a brightness-column entry, and the
surviving rows passed both filters. -/
theorem prepare_object_table_mem_decomp {M fov : ℚ} {sep : CatRow → ℚ}
    {colours : String → RGB ℝ} {star planets : List CatRow} {r : PreparedRow}
    (hr : r ∈ prepare_object_table M sep fov colours star planets) :
    ∃ a ∈ filter_objects_fov sep fov
        (filter_objects_brightness M (star ++ planets)),
      ∃ b ∈ get_scaled_brightness_column
          ((filter_objects_fov sep fov (filter_objects_brightness M (star ++ planets))).map
            (fun r => r.magnitude)),
        r = { ra := a.ra, dec := a.dec, magnitude := a.magnitude, separation := sep a,
              brightness := b, rgb := colours a.spectral_type } := by
  unfold prepare_object_table at hr
  by_cases hemp :
      (filter_objects_fov sep fov (filter_objects_brightness M (star ++ planets))).isEmpty
  · rw [if_pos hemp] at hr
    simp at hr
  · rw [if_neg hemp] at hr
    exact mem_zipWith hr

theorem filter_objects_brightness_sound {M : ℚ} {t : List CatRow} {a : CatRow}
    (ha : a ∈ filter_objects_brightness M t) : a ∈ t ∧ a.magnitude ≤ M := by
  unfold filter_objects_brightness at ha
  have := List.mem_filter.mp ha
  exact ⟨this.1, by simpa using this.2⟩

theorem filter_objects_fov_sound {sep : CatRow → ℚ} {fov : ℚ} {t : List CatRow} {a : CatRow}
    (ha : a ∈ filter_objects_fov sep fov t) : a ∈ t ∧ sep a ≤ fov / 2 * 1.01 := by
  unfold filter_objects_fov at ha
  have := List.mem_filter.mp ha
  exact ⟨this.1, by simpa using this.2⟩

/-- Every prepared row passed both the magnitude filter (inclusively) and
the field-of-view filter. -/
theorem prepare_object_table_filters {M fov : ℚ} {sep : CatRow → ℚ}
    {colours : String → RGB ℝ} {star planets : List CatRow} {r : PreparedRow}
    (hr : r ∈ prepare_object_table M sep fov colours star planets) :
    r.magnitude ≤ M ∧ r.separation ≤ fov / 2 * 1.01 := by
  obtain ⟨a, ha, b, hb, rfl⟩ := prepare_object_table_mem_decomp hr
  obtain ⟨ha1, hsep⟩ := filter_objects_fov_sound ha
  obtain ⟨_, hmag⟩ := filter_objects_brightness_sound ha1
  exact ⟨hmag, hsep⟩

/-- Every prepared row's brightness is in `[MINIMUM_BRIGHTNESS, 1]` and its
colour is one of the configured object colours. -/
theorem prepare_object_table_brightness_rgb {M fov : ℚ} {sep : CatRow → ℚ}
    {colours : String → RGB ℝ} {star planets : List CatRow} {r : PreparedRow}
    (hr : r ∈ prepare_object_table M sep fov colours star planets) :
    (MINIMUM_BRIGHTNESS ≤ r.brightness ∧ r.brightness ≤ 1) ∧ ∃ s, r.rgb = colours s := by
  obtain ⟨a, ha, b, hb, rfl⟩ := prepare_object_table_mem_decomp hr
  have hne : (filter_objects_fov sep fov (filter_objects_brightness M (star ++ planets))).map
      (fun r => r.magnitude) ≠ [] := by
    intro hcon
    rw [List.map_eq_nil_iff] at hcon
    rw [hcon] at ha
    simp at ha
  exact ⟨scaled_brightness_bounds hne b hb, a.spectral_type, rfl⟩

theorem reinsert_not_mem {α : Type} {mat : ℕ → α} :
    ∀ {res : List (ℕ × α)} {j : ℕ}, j ∉ res.map Prod.fst → reinsert mat res j = mat j := by
  intro res
  induction res generalizing mat with
  | nil => intro j _; rfl
  | cons p rest ih =>
    intro j hj
    rw [List.map_cons] at hj
    have hj1 : j ≠ p.1 := fun h => hj (by rw [h]; exact List.mem_cons_self _ _)
    have hj2 : j ∉ rest.map Prod.fst := fun h => hj (List.mem_cons_of_mem _ h)
    unfold reinsert
    rw [List.foldl_cons]
    have hrec : reinsert (fun j => if j = p.1 then p.2 else mat j) rest j =
        (fun j => if j = p.1 then p.2 else mat j) j := ih hj2
    unfold reinsert at hrec
    rw [hrec]
    exact if_neg hj1

theorem reinsert_eq_of_mem {α : Type} {mat : ℕ → α} :
    ∀ {res : List (ℕ × α)} {j : ℕ} {v : α}, (res.map Prod.fst).Nodup → (j, v) ∈ res →
      reinsert mat res j = v := by
  intro res
  induction res generalizing mat with
  | nil => intro j v _ h; simp at h
  | cons p rest ih =>
    intro j v hnd hjv
    rw [List.map_cons, List.nodup_cons] at hnd
    unfold reinsert
    rw [List.foldl_cons]
    rcases List.mem_cons.mp hjv with hcase | hcase
    · have hj : j = p.1 := congrArg Prod.fst hcase
      have hv : v = p.2 := congrArg Prod.snd hcase
      have hnotin : j ∉ rest.map Prod.fst := by rw [hj]; exact hnd.1
      have hrec : reinsert (fun j => if j = p.1 then p.2 else mat j) rest j =
          (fun j => if j = p.1 then p.2 else mat j) j := reinsert_not_mem hnotin
      unfold reinsert at hrec
      rw [hrec]
      show (if j = p.1 then p.2 else mat j) = v
      rw [if_pos hj, hv]
    · have hrec : reinsert (fun j => if j = p.1 then p.2 else mat j) rest j = v :=
        ih hnd.2 hcase
      unfold reinsert at hrec
      rw [hrec]

theorem sequential_fill_succ {α β : Type} (worker : ℕ → α → α) (tables : ℕ → List β)
    (mat : ℕ → α) (n : ℕ) (j : ℕ) :
    sequential_fill worker tables mat (n + 1) j =
      if 0 < (tables n).length then
        (if j = n then worker n (sequential_fill worker tables mat n n)
          else sequential_fill worker tables mat n j)
      else sequential_fill worker tables mat n j := by
  unfold sequential_fill
  rw [List.range_succ, List.foldl_append, List.foldl_cons, List.foldl_nil]
  by_cases htab : 0 < (tables n).length
  · rw [if_pos htab, if_pos htab]
  · rw [if_neg htab, if_neg htab]

/-- Pointwise description of the sequential reference execution. -/
theorem sequential_fill_eq {α β : Type} (worker : ℕ → α → α) (tables : ℕ → List β)
    (mat : ℕ → α) (frames : ℕ) (j : ℕ) :
    sequential_fill worker tables mat frames j =
      if j < frames ∧ 0 < (tables j).length then worker j (mat j) else mat j := by
  induction frames generalizing j with
  | zero =>
    unfold sequential_fill
    simp
  | succ n ih =>
    rw [sequential_fill_succ]
    by_cases htab : 0 < (tables n).length
    · rw [if_pos htab]
      by_cases hj : j = n
      · subst hj
        rw [if_pos rfl, ih]
        have hnot : ¬(j < j ∧ 0 < (tables j).length) := fun h => lt_irrefl j h.1
        rw [if_neg hnot, if_pos ⟨Nat.lt_succ_self j, htab⟩]
      · rw [if_neg hj, ih]
        by_cases hP : 0 < (tables j).length
        · by_cases hlt : j < n
          · rw [if_pos ⟨hlt, hP⟩, if_pos ⟨Nat.lt_succ_of_lt hlt, hP⟩]
          · have h2 : ¬j < n + 1 := by omega
            rw [if_neg (fun h => hlt h.1), if_neg (fun h => h2 h.1)]
        · rw [if_neg (fun h => hP h.2), if_neg (fun h => hP h.2)]
    · rw [if_neg htab, ih]
      by_cases hj : j = n
      · subst hj
        rw [if_neg (fun h => htab h.2), if_neg (fun h => htab h.2)]
      · by_cases hP : 0 < (tables j).length
        · by_cases hlt : j < n
          · rw [if_pos ⟨hlt, hP⟩, if_pos ⟨Nat.lt_succ_of_lt hlt, hP⟩]
          · have h2 : ¬j < n + 1 := by omega
            rw [if_neg (fun h => hlt h.1), if_neg (fun h => h2 h.1)]
        · rw [if_neg (fun h => hP h.2), if_neg (fun h => hP h.2)]

theorem tasks_keys {α β : Type} (worker : ℕ → α → α) (tables : ℕ → List β) (mat : ℕ → α)
    (frames : ℕ) :
    (tasks worker tables mat frames).map Prod.fst =
      (List.range frames).filter (fun i => decide (0 < (tables i).length)) := by
  unfold tasks
  rw [List.map_map]
  exact List.map_id _

theorem tasks_keys_nodup {α β : Type} (worker : ℕ → α → α) (tables : ℕ → List β)
    (mat : ℕ → α) (frames : ℕ) : ((tasks worker tables mat frames).map Prod.fst).Nodup := by
  rw [tasks_keys]
  exact (List.nodup_range frames).filter _

theorem tasks_mem_iff {α β : Type} (worker : ℕ → α → α) (tables : ℕ → List β) (mat : ℕ → α)
    (frames : ℕ) (j : ℕ) :
    j ∈ (tasks worker tables mat frames).map Prod.fst ↔
      j < frames ∧ 0 < (tables j).length := by
  rw [tasks_keys, List.mem_filter, List.mem_range]
  simp

theorem tasks_pair_mem {α β : Type} (worker : ℕ → α → α) (tables : ℕ → List β) (mat : ℕ → α)
    (frames : ℕ) (j : ℕ) (hj : j < frames) (hP : 0 < (tables j).length) :
    (j, worker j (mat j)) ∈ tasks worker tables mat frames := by
  unfold tasks
  apply List.mem_map_of_mem
  rw [List.mem_filter, List.mem_range]
  simp [hj, hP]

theorem convex_mem01 {K : Type} [LinearOrderedField K] {w x y : K} (hw0 : 0 ≤ w)
    (hw1 : w ≤ 1) (hx : 0 ≤ x ∧ x ≤ 1) (hy : 0 ≤ y ∧ y ≤ 1) :
    0 ≤ w * x + (1 - w) * y ∧ w * x + (1 - w) * y ≤ 1 := by
  have hw' : (0 : K) ≤ 1 - w := by linarith
  constructor
  · have h1 := mul_nonneg hw0 hx.1
    have h2 := mul_nonneg hw' hy.1
    linarith
  · have h1 := mul_le_mul_of_nonneg_left hx.2 hw0
    have h2 := mul_le_mul_of_nonneg_left hy.2 hw'
    rw [mul_one] at h1 h2
    linarith

theorem np_average2_rgb01 {K : Type} [LinearOrderedField K] {w : K} (hw0 : 0 ≤ w)
    (hw1 : w ≤ 1) {a b : RGB K} (ha : rgb01 a) (hb : rgb01 b) :
    rgb01 (np_average2 w (1 - w) a b) := by
  have hsum : w + (1 - w) = 1 := by ring
  unfold np_average2 rgb01
  rw [hsum]
  simp only [div_one]
  exact ⟨convex_mem01 hw0 hw1 ha.1 hb.1, convex_mem01 hw0 hw1 ha.2.1 hb.2.1,
    convex_mem01 hw0 hw1 ha.2.2 hb.2.2⟩

theorem add_object_rgb01 {K : Type} [LinearOrderedField K] (row : ObjRow K)
    (offsets : List (ℤ × ℤ)) (wt : ℤ × ℤ → K) (px : ℤ)
    (hwt : ∀ o, 0 ≤ wt o ∧ wt o ≤ 1) (hbr : 0 ≤ row.brightness ∧ row.brightness ≤ 1)
    (hrgb : rgb01 row.rgb) :
    ∀ frame : Frame K, (∀ p, rgb01 (frame p)) →
      ∀ p, rgb01 (add_object_to_frame row frame offsets wt px p) := by
  induction offsets with
  | nil => intro frame hframe p; exact hframe p
  | cons o rest ih =>
    intro frame hframe p
    unfold add_object_to_frame
    rw [List.foldl_cons]
    by_cases hin : pixel_in_frame (o.1 + row.x, o.2 + row.y) px
    · rw [if_pos hin]
      have hupd : ∀ q, rgb01 (updatePixel frame (o.1 + row.x, o.2 + row.y)
          (np_average2 (wt o * row.brightness) (1 - wt o * row.brightness) row.rgb
            (frame (o.1 + row.x, o.2 + row.y))) q) := by
        intro q
        unfold updatePixel
        by_cases hq : q = (o.1 + row.x, o.2 + row.y)
        · rw [if_pos hq]
          exact np_average2_rgb01 (mul_nonneg (hwt o).1 hbr.1)
            (mul_le_one₀ (hwt o).2 hbr.1 hbr.2) hrgb (hframe _)
        · rw [if_neg hq]
          exact hframe q
      exact ih _ hupd p
    · rw [if_neg hin]
      exact ih frame hframe p

theorem fill_frame_objects_rgb01 (projI : ℚ × ℚ → ℝ × ℝ) (rows : List PreparedRow)
    (offsets : List (ℤ × ℤ)) (wt : ℤ × ℤ → ℝ) (px : ℤ)
    (hwt : ∀ o, 0 ≤ wt o ∧ wt o ≤ 1)
    (hrows : ∀ r ∈ rows, (0 ≤ r.brightness ∧ r.brightness ≤ 1) ∧ rgb01 r.rgb) :
    ∀ frame : Frame ℝ, (∀ p, rgb01 (frame p)) →
      ∀ p, rgb01 (fill_frame_objects projI rows frame offsets wt px p) := by
  induction rows with
  | nil => intro frame hframe p; exact hframe p
  | cons r rest ih =>
    intro frame hframe p
    unfold fill_frame_objects
    rw [List.foldl_cons]
    have hr := hrows r (List.mem_cons_self r rest)
    have hnext := add_object_rgb01
      { x := npround (projI (r.ra, r.dec)).2, y := npround (projI (r.ra, r.dec)).1,
        brightness := r.brightness, rgb := r.rgb }
      offsets wt px hwt hr.1 hr.2 frame hframe
    exact ih (fun r' hr' => hrows r' (List.mem_cons_of_mem r hr')) _ hnext p

theorem reinsert_pointwise_prop {α : Type} (P : α → Prop) :
    ∀ (res : List (ℕ × α)) (mat : ℕ → α), (∀ i, P (mat i)) → (∀ pr ∈ res, P pr.2) →
      ∀ i, P (reinsert mat res i) := by
  intro res
  induction res with
  | nil => intro mat hmat _ i; exact hmat i
  | cons p rest ih =>
    intro mat hmat hres i
    unfold reinsert
    rw [List.foldl_cons]
    have hmat1 : ∀ j, P ((fun j => if j = p.1 then p.2 else mat j) j) := by
      intro j
      by_cases hj : j = p.1
      · simp only [if_pos hj]
        exact hres p (List.mem_cons_self p rest)
      · simp only [if_neg hj]
        exact hmat j
    have := ih _ hmat1 (fun pr hpr => hres pr (List.mem_cons_of_mem p hpr)) i
    unfold reinsert at this
    exact this

theorem channel_bounds {K : Type} [LinearOrderedField K] {v : RGB K} (hv : rgb01 v)
    (c : ℕ) : 0 ≤ channel c v ∧ channel c v ≤ 1 := by
  match c with
  | 0 => exact hv.1
  | 1 => exact hv.2.1
  | Nat.succ (Nat.succ c) => exact hv.2.2

theorem getD_prop {α : Type} {P : α → Prop} {l : List α} {d : α} (hl : ∀ a ∈ l, P a)
    (hd : P d) (i : ℕ) : P (l.getD i d) := by
  by_cases h : i < l.length
  · rw [List.getD_eq_getElem l d h]
    exact hl _ (l.getElem_mem h)
  · rw [List.getD_eq_default l d (le_of_not_lt h)]
    exact hd

theorem getD_map_range {α : Type} (n : ℕ) (g : ℕ → α) (d : α) (i : ℕ) (h : i < n) :
    ((List.range n).map g).getD i d = g i := by
  rw [List.getD_eq_getElem _ _ (by simpa using h), List.getElem_map, List.getElem_range]

/-! ### `np.interp` boundary behaviour -/
theorem np_interp_le_head (x : ℚ) (p : ℚ × ℚ) (rest : List (ℚ × ℚ)) (hx : x ≤ p.1) :
    np_interp x (p :: rest) = p.2 := by
  cases rest with
  | nil => rfl
  | cons q rest =>
    unfold np_interp
    rw [if_pos hx]

theorem sorted_first_le_getLast :
    ∀ (l : List (ℚ × ℚ)) (hne : l ≠ []), l.Pairwise (fun u v => u.1 < v.1) →
      (l.head hne).1 ≤ (l.getLast hne).1 := by
  intro l
  induction l with
  | nil => intro hne; exact absurd rfl hne
  | cons a t ih =>
    intro _ hsorted
    cases t with
    | nil => simp
    | cons b t2 =>
      have hab : a.1 < b.1 := (List.pairwise_cons.mp hsorted).1 b (List.mem_cons_self b t2)
      have hrest := ih (List.cons_ne_nil b t2) (List.pairwise_cons.mp hsorted).2
      rw [List.head_cons] at hrest
      rw [List.head_cons, List.getLast_cons (List.cons_ne_nil b t2)]
      linarith

theorem np_interp_gt_last (x : ℚ) :
    ∀ (l : List (ℚ × ℚ)) (hne : l ≠ []), l.Pairwise (fun u v => u.1 < v.1) →
      (l.getLast hne).1 < x → np_interp x l = (l.getLast hne).2 := by
  intro l
  induction l with
  | nil => intro hne; exact absurd rfl hne
  | cons p t ih =>
    intro _ hsorted hx
    cases t with
    | nil => rfl
    | cons q t2 =>
      rw [List.getLast_cons (List.cons_ne_nil q t2)] at hx ⊢
      have hpq : p.1 < q.1 := (List.pairwise_cons.mp hsorted).1 q (List.mem_cons_self q t2)
      have hq_last : q.1 ≤ ((q :: t2).getLast (List.cons_ne_nil q t2)).1 := by
        have := sorted_first_le_getLast (q :: t2) (List.cons_ne_nil q t2)
          (List.pairwise_cons.mp hsorted).2
        rw [List.head_cons] at this
        exact this
      have hxp : ¬x ≤ p.1 := by linarith
      have hxq : ¬x ≤ q.1 := by linarith
      unfold np_interp
      rw [if_neg hxp, if_neg hxq]
      exact ih (List.cons_ne_nil q t2) (List.pairwise_cons.mp hsorted).2 hx

theorem magnitude_mapping_length_eq (tis : List (ℚ × ℕ)) (vals : List ℚ) :
    (magnitude_mapping tis vals).length = 86400 := by
  unfold magnitude_mapping
  rw [List.length_map, List.length_range]

theorem magnitude_mapping_getD (tis : List (ℚ × ℕ)) (vals : List ℚ) (k : ℕ)
    (hk : k < 86400) :
    (magnitude_mapping tis vals).getD k 0 =
      np_interp ((k : ℚ) / 86399) (tis.map (fun p => (p.1 / 24, vals.getD p.2 0))) := by
  unfold magnitude_mapping
  rw [getD_map_range _ _ _ k (by omega)]
  norm_num

/-! ## Claims -/
/-- **C3** (code bug): per the claim, the falloff kernel built from
`stddev = 1.0`, `K = 10` should have weight `1.0` at radius 0 — it does —
and weight `exp(-25) ≈ 1.4e-11` at radius 5.  In the code,
`brightness_scale_mesh` is allocated with `np.zeros_like(area_mesh[0])`,
which inherits the **integer** dtype of the coordinate mesh, so every
stored Gaussian weight is truncated to an integer: the entry at radius 5
(offset `(5, 0)`) is `0`, not `exp(-25)` (which is nonzero).  This
contradicts the function's own `FloatArray` return annotation and the
stated purpose of `brightness_gaussian`. -/
theorem claim_C3 :
    brightness_scale_mesh_entry 1 0 0 = 1 ∧
    brightness_scale_mesh_entry 1 5 0 = 0 ∧ Real.exp (-25) ≠ 0 := by
  refine ⟨?_, ?_, ?_⟩
  · unfold brightness_scale_mesh_entry brightness_gaussian
    have h0 : Real.sqrt (((0 : ℤ) : ℝ) ^ 2 + ((0 : ℤ) : ℝ) ^ 2) = 0 := by
      norm_num
    rw [h0]
    norm_num
  · unfold brightness_scale_mesh_entry brightness_gaussian
    have h5 : Real.sqrt (((5 : ℤ) : ℝ) ^ 2 + ((0 : ℤ) : ℝ) ^ 2) = 5 := by
      rw [show (((5 : ℤ) : ℝ) ^ 2 + ((0 : ℤ) : ℝ) ^ 2) = 5 ^ 2 by norm_num]
      exact Real.sqrt_sq (by norm_num)
    rw [h5]
    have harg : -((5 : ℝ) ^ 2) / (1 : ℝ) ^ 2 = -25 := by norm_num
    rw [harg]
    rw [Int.floor_eq_zero_iff]
    constructor
    · exact le_of_lt (Real.exp_pos (-25))
    · exact Real.exp_lt_one_iff.mpr (by norm_num)
  · exact ne_of_gt (Real.exp_pos (-25))

/-- **C4** (code bug): the dense magnitude lookup does have exactly 86,400
entries, but the frame lookup index is `int(get_seconds_from_midnight(t))`,
and `get_seconds_from_midnight` builds its `timedelta` from `hours`,
`minutes` and `microseconds` only — the `seconds` component is dropped,
contradicting both the claim's formula
`s = 3600*hour + 60*minute + second + microsecond/1e6` and the function's
own docstring.  At local time 00:00:30 the code computes 0 seconds since
midnight instead of 30. -/
theorem claim_C4 :
    (∀ (tis : List (ℚ × ℕ)) (vals : List ℚ),
      (magnitude_mapping tis vals).length = 86400) ∧
    get_seconds_from_midnight ⟨0, 0, 30, 0⟩ = 0 ∧
    spec_seconds_from_midnight ⟨0, 0, 30, 0⟩ = 30 := by
  refine ⟨magnitude_mapping_length_eq, ?_, ?_⟩
  · unfold get_seconds_from_midnight
    norm_num
  · unfold spec_seconds_from_midnight
    norm_num

/-- **C10**: if the magnitude control points do not cover hours
`[0, 24]`, building the dense lookup raises no error (the construction is a
total function), and every second of day whose day-fraction lies before the
first control point maps to the first point's value, and after the last
control point to the last point's value — constant extension by `np.interp`,
no linear extrapolation. -/
theorem claim_C10 (tis : List (ℚ × ℕ)) (vals : List ℚ) (hne : tis ≠ [])
    (hsorted : tis.Pairwise (fun u v => u.1 < v.1)) (k : ℕ) (hk : k < 86400) :
    ((k : ℚ) / 86399 < (tis.head hne).1 / 24 →
      (magnitude_mapping tis vals).getD k 0 = vals.getD (tis.head hne).2 0) ∧
    ((tis.getLast hne).1 / 24 < (k : ℚ) / 86399 →
      (magnitude_mapping tis vals).getD k 0 = vals.getD (tis.getLast hne).2 0) := by
  have hmapne : tis.map (fun p => (p.1 / 24, vals.getD p.2 0)) ≠ [] := by
    simpa using hne
  have hmapsorted :
      (tis.map (fun p => (p.1 / 24, vals.getD p.2 0))).Pairwise (fun u v => u.1 < v.1) := by
    refine List.Pairwise.map _ ?_ hsorted
    intro a b hab
    show a.1 / 24 < b.1 / 24
    rw [div_eq_mul_inv, div_eq_mul_inv]
    exact mul_lt_mul_of_pos_right hab (by norm_num)
  constructor
  · intro hlt
    rw [magnitude_mapping_getD tis vals k hk]
    cases tis with
    | nil => exact absurd rfl hne
    | cons t0 rest =>
      rw [List.map_cons]
      rw [List.head_cons] at hlt
      exact np_interp_le_head _ _ _ (le_of_lt hlt)
  · intro hlt
    rw [magnitude_mapping_getD tis vals k hk]
    have hlast : (tis.map (fun p => (p.1 / 24, vals.getD p.2 0))).getLast hmapne =
        ((tis.getLast hne).1 / 24, vals.getD (tis.getLast hne).2 0) := by
      rw [List.getLast_map]
    have := np_interp_gt_last ((k : ℚ) / 86399) _ hmapne hmapsorted
      (by rw [hlast]; exact hlt)
    rw [this, hlast]

theorem claim_C10_witness :
    (magnitude_mapping [((6 : ℚ), 0), (18, 1)] [3, 7]).getD 0 0 = 3 := by
  have h := (claim_C10 [((6 : ℚ), 0), (18, 1)] [3, 7] (by decide) (by decide) 0
    (by norm_num)).1 (by norm_num)
  simpa using h

theorem np_average2_convex {K : Type} [LinearOrderedField K] (w : K) (a b : RGB K) :
    np_average2 w (1 - w) a b =
      (w * a.1 + (1 - w) * b.1, w * a.2.1 + (1 - w) * b.2.1,
        w * a.2.2 + (1 - w) * b.2.2) := by
  unfold np_average2
  have h : w + (1 - w) = 1 := by ring
  rw [h]
  simp

/-- **C1**: for every object record and every kernel offset, if the absolute
pixel `offset + (row.x, row.y)` lies inside `[0, image_pixels)` on both
axes, the compositor replaces that pixel's RGB value with the convex
combination `weight * object_colour + (1 - weight) * old_colour`, where
`weight = kernel_weight_at_offset * row.brightness`; if the absolute pixel
is outside those bounds on either axis the contribution is skipped entirely
(the pixel keeps its old value — no wraparound, no clamping, no error).
The kernel offsets are pairwise distinct, as a meshgrid's are. -/
theorem claim_C1 {K : Type} [LinearOrderedField K] (row : ObjRow K) (frame : Frame K)
    (offsets : List (ℤ × ℤ)) (wt : ℤ × ℤ → K) (image_pixels : ℤ)
    (hnd : offsets.Nodup) (off : ℤ × ℤ) (hoff : off ∈ offsets) :
    (pixel_in_frame (off.1 + row.x, off.2 + row.y) image_pixels = true →
      add_object_to_frame row frame offsets wt image_pixels (off.1 + row.x, off.2 + row.y) =
        (wt off * row.brightness * row.rgb.1 +
            (1 - wt off * row.brightness) * (frame (off.1 + row.x, off.2 + row.y)).1,
          wt off * row.brightness * row.rgb.2.1 +
            (1 - wt off * row.brightness) * (frame (off.1 + row.x, off.2 + row.y)).2.1,
          wt off * row.brightness * row.rgb.2.2 +
            (1 - wt off * row.brightness) * (frame (off.1 + row.x, off.2 + row.y)).2.2)) ∧
    (pixel_in_frame (off.1 + row.x, off.2 + row.y) image_pixels = false →
      add_object_to_frame row frame offsets wt image_pixels (off.1 + row.x, off.2 + row.y) =
        frame (off.1 + row.x, off.2 + row.y)) := by
  have h := add_object_at_offset row frame wt image_pixels hnd hoff
  constructor
  · intro hin
    rw [h, if_pos hin, np_average2_convex]
  · intro hout
    rw [h, if_neg (by rw [hout]; exact Bool.false_ne_true)]

theorem claim_C1_witness :
    add_object_to_frame (K := ℚ) ⟨0, 0, 1/2, (1, 0, 0)⟩ (fun _ => (0, 0, 0))
        [(0, 0), (7, 0)] (fun _ => 1) 1 (0, 0) = (1/2, 0, 0) ∧
      add_object_to_frame (K := ℚ) ⟨0, 0, 1/2, (1, 0, 0)⟩ (fun _ => (0, 0, 0))
        [(0, 0), (7, 0)] (fun _ => 1) 1 (7, 0) = (0, 0, 0) := by
  constructor
  · have h := (claim_C1 (K := ℚ) ⟨0, 0, 1/2, (1, 0, 0)⟩ (fun _ => (0, 0, 0))
      [(0, 0), (7, 0)] (fun _ => 1) 1 (by decide) (0, 0) (by decide)).1 (by decide)
    norm_num at h
    exact h
  · have h := (claim_C1 (K := ℚ) ⟨0, 0, 1/2, (1, 0, 0)⟩ (fun _ => (0, 0, 0))
      [(0, 0), (7, 0)] (fun _ => 1) 1 (by decide) (7, 0) (by decide)).2 (by decide)
    norm_num at h
    exact h

/-- **C9 counterexample**: the claim as stated is false.  With the frame
pre-filled with a bright (white) background, an object with a non-black
colour `(1, 0, 0)` and positive brightness `1/2` whose target pixel is in
frame does **not** increase the summed RGB at its pixel: the convex blend
pulls the white pixel towards the dimmer object colour. -/
theorem claim_C9_counterexample :
    ¬(sum_rgb (add_object_to_frame (K := ℚ) ⟨0, 0, 1/2, (1, 0, 0)⟩
          (fill_frame_background (1, 1, 1) (fun _ => (0, 0, 0))) [(0, 0)] (fun _ => 1) 1
          (0, 0)) >
        sum_rgb (fill_frame_background ((1 : ℚ), 1, 1) (fun _ => (0, 0, 0)) (0, 0))) := by
  have h := add_object_at_offset (K := ℚ) ⟨0, 0, 1/2, (1, 0, 0)⟩
    (fill_frame_background (1, 1, 1) (fun _ => (0, 0, 0))) (fun _ => 1) 1
    (show ([((0 : ℤ), (0 : ℤ))]).Nodup by decide)
    (show ((0 : ℤ), (0 : ℤ)) ∈ [((0 : ℤ), (0 : ℤ))] by decide)
  rw [if_pos (by decide : pixel_in_frame
    ((((0 : ℤ), (0 : ℤ))).1 + (ObjRow.mk (K := ℚ) 0 0 (1/2) (1, 0, 0)).x,
      (((0 : ℤ), (0 : ℤ))).2 + (ObjRow.mk (K := ℚ) 0 0 (1/2) (1, 0, 0)).y) 1 = true)] at h
  norm_num [fill_frame_background, np_average2] at h
  norm_num [fill_frame_background, sum_rgb]
  rw [h]
  norm_num

/-- **C9 (amended)**: for every frame buffer pre-filled with a background
colour and every object record with positive brightness whose target pixel
lies in the frame, adding the object via `add_object_to_frame` strictly
increases the summed RGB at the target pixel **provided the summed RGB of
the object's colour strictly exceeds the summed RGB of the background
colour** (so in particular for any non-black object over the black
background used by the repository's own test).  The centre kernel weight is
1, as the falloff kernel's is. -/
theorem claim_C9 {K : Type} [LinearOrderedField K] (bg : RGB K) (frame0 : Frame K)
    (row : ObjRow K) (offsets : List (ℤ × ℤ)) (wt : ℤ × ℤ → K) (image_pixels : ℤ)
    (hnd : offsets.Nodup) (hcenter : (0, 0) ∈ offsets) (hwt : wt (0, 0) = 1)
    (hbr : 0 < row.brightness)
    (hin : pixel_in_frame (row.x, row.y) image_pixels = true)
    (hsum : sum_rgb bg < sum_rgb row.rgb) :
    sum_rgb (add_object_to_frame row (fill_frame_background bg frame0) offsets wt
        image_pixels (row.x, row.y)) >
      sum_rgb (fill_frame_background bg frame0 (row.x, row.y)) := by
  have h := add_object_at_offset row (fill_frame_background bg frame0) wt image_pixels hnd
    hcenter
  have hpix : ((((0, 0) : ℤ × ℤ)).1 + row.x, (((0, 0) : ℤ × ℤ)).2 + row.y) =
      (row.x, row.y) := by
    simp
  rw [hpix] at h
  rw [h, if_pos hin, np_average2_convex, hwt, one_mul]
  have hprod : 0 < row.brightness * (sum_rgb row.rgb - sum_rgb bg) :=
    mul_pos hbr (by linarith)
  unfold sum_rgb fill_frame_background at *
  ring_nf
  ring_nf at hprod
  nlinarith [hprod]

theorem claim_C9_witness :
    sum_rgb (add_object_to_frame (K := ℚ) ⟨0, 0, 1/2, (1, 0, 0)⟩
        (fill_frame_background (0, 0, 0) (fun _ => (0, 0, 0))) [(0, 0)] (fun _ => 1) 1
        (0, 0)) >
      sum_rgb (fill_frame_background ((0 : ℚ), 0, 0) (fun _ => (0, 0, 0)) (0, 0)) :=
  claim_C9 (K := ℚ) (0, 0, 0) (fun _ => (0, 0, 0)) ⟨0, 0, 1/2, (1, 0, 0)⟩ [(0, 0)]
    (fun _ => 1) 1 (by decide) (by decide) rfl (by norm_num) (by decide)
    (by norm_num [sum_rgb])

theorem scenario_filtered :
    filter_objects_fov (fun _ => 0) 10 (filter_objects_brightness 5 (scenario_star_table ++ [])) =
      [{ id := 1, ra := 0, dec := 0, magnitude := 5, spectral_type := "A" }] := by
  simp only [scenario_star_table, List.append_nil, filter_objects_brightness,
    filter_objects_fov, List.filter_cons, List.filter_nil]
  norm_num

theorem scenario_magnitudes :
    (prepare_object_table 5 (fun _ => 0) 10 (fun _ => ((0 : ℝ), 0, 0)) scenario_star_table
        []).map (fun r => r.magnitude) = [5] := by
  simp only [prepare_object_table, scenario_filtered]
  norm_num [get_scaled_brightness_column_eq, mag_log_column]

/-- **C2**: every record of the prepared per-frame object table returned by
`prepare_object_table` has magnitude ≤ the frame's time-dependent threshold
(the comparison is inclusive) and angular separation from the frame's
pointing ≤ `fov/2 × 1.01`; concretely, at threshold 5.0 the record with
magnitude 5.0 is kept and the record with magnitude 5.0001 is dropped. -/
theorem claim_C2 (M : ℚ) (sep : CatRow → ℚ) (fov : ℚ) (colours : String → RGB ℝ)
    (star planets : List CatRow) :
    (∀ r ∈ prepare_object_table M sep fov colours star planets,
      r.magnitude ≤ M ∧ r.separation ≤ fov / 2 * 1.01) ∧
    (prepare_object_table 5 (fun _ => 0) 10 (fun _ => ((0 : ℝ), 0, 0)) scenario_star_table
        []).map (fun r => r.magnitude) = [5] :=
  ⟨fun _ hr => prepare_object_table_filters hr, scenario_magnitudes⟩

theorem claim_C2_witness :
    ((prepare_object_table 5 (fun _ => 0) 10 (fun _ => ((0 : ℝ), 0, 0)) scenario_star_table
        []).getD 0
        { ra := 0, dec := 0, magnitude := 0, separation := 1000, brightness := 0,
          rgb := (0, 0, 0) }).magnitude ≤ 5 ∧
    ((prepare_object_table 5 (fun _ => 0) 10 (fun _ => ((0 : ℝ), 0, 0)) scenario_star_table
        []).getD 0
        { ra := 0, dec := 0, magnitude := 0, separation := 1000, brightness := 0,
          rgb := (0, 0, 0) }).separation ≤ 10 / 2 * 1.01 := by
  have h2 := (claim_C2 5 (fun _ => 0) 10 (fun _ => ((0 : ℝ), 0, 0)) scenario_star_table []).2
  have hlen : 0 < (prepare_object_table 5 (fun _ => 0) 10 (fun _ => ((0 : ℝ), 0, 0))
      scenario_star_table []).length := by
    have := congrArg List.length h2
    rw [List.length_map] at this
    rw [this]
    norm_num
  have hmem : (prepare_object_table 5 (fun _ => 0) 10 (fun _ => ((0 : ℝ), 0, 0))
      scenario_star_table []).getD 0
      { ra := 0, dec := 0, magnitude := 0, separation := 1000, brightness := 0,
        rgb := (0, 0, 0) } ∈
      prepare_object_table 5 (fun _ => 0) 10 (fun _ => ((0 : ℝ), 0, 0))
        scenario_star_table [] := by
    rw [List.getD_eq_getElem _ _ hlen]
    exact List.getElem_mem hlen
  exact (claim_C2 5 (fun _ => 0) 10 (fun _ => ((0 : ℝ), 0, 0)) scenario_star_table []).1 _
    hmem

/-- **C5**: for every object table whose magnitude column is non-degenerate,
the brightness column produced by `get_scaled_brightness` has
`min = MINIMUM_BRIGHTNESS (0.2)` and `max = 1`, brightness is a
monotonically decreasing function of magnitude, and the record with the
minimum magnitude has the maximum brightness (value 1). -/
theorem claim_C5 (ms : List ℚ) (hne : ms ≠ []) (hnd : ∃ a ∈ ms, ∃ b ∈ ms, a ≠ b) :
    np_min (get_scaled_brightness_column ms) = MINIMUM_BRIGHTNESS ∧
    np_max (get_scaled_brightness_column ms) = 1 ∧
    (∀ i j : Fin ms.length, ms.get i ≤ ms.get j →
      (get_scaled_brightness_column ms).getD (j : ℕ) 0 ≤
        (get_scaled_brightness_column ms).getD (i : ℕ) 0) ∧
    (∀ i : Fin ms.length, (∀ k : Fin ms.length, ms.get i ≤ ms.get k) →
      (get_scaled_brightness_column ms).getD (i : ℕ) 0 = 1) := by
  refine ⟨scaled_brightness_min hne, scaled_brightness_max hne hnd, ?_, ?_⟩
  · intro i j hij
    rw [scaled_brightness_getD ms (i : ℕ) i.isLt, scaled_brightness_getD ms (j : ℕ) j.isLt]
    simp only [Fin.eta]
    apply round5_mono
    apply rescale_fun_mono (mag_log_column ms) (mag_log_column_ne_nil hne)
      MINIMUM_BRIGHTNESS_le_one
    have hc : (ms.get i : ℝ) ≤ (ms.get j : ℝ) := by exact_mod_cast hij
    rw [div_eq_mul_inv, div_eq_mul_inv]
    exact mul_le_mul_of_nonneg_right (by linarith) (by norm_num)
  · intro i hmin
    rw [scaled_brightness_getD ms (i : ℕ) i.isLt]
    simp only [Fin.eta]
    have hmax : -(ms.get i : ℝ) / 2.5 = np_max (mag_log_column ms) := by
      apply le_antisymm (le_np_max (mag_log_mem ms (i : ℕ) i.isLt))
      have hmem := np_max_mem (mag_log_column_ne_nil hne)
      obtain ⟨m, hm, hval⟩ := List.mem_map.mp hmem
      have hval2 : -(m : ℝ) / 2.5 = np_max (mag_log_column ms) := hval
      rw [← hval2]
      obtain ⟨k, hk⟩ := List.mem_iff_get.mp hm
      have hik : ms.get i ≤ m := hk ▸ hmin k
      have hc : (ms.get i : ℝ) ≤ (m : ℝ) := by exact_mod_cast hik
      rw [div_eq_mul_inv, div_eq_mul_inv]
      exact mul_le_mul_of_nonneg_right (by linarith) (by norm_num)
    rw [hmax, rescale_fun_at_max _ _ _ (mag_log_column_range_ne_zero hnd), round5_one]

theorem claim_C5_witness :
    np_min (get_scaled_brightness_column [0, 5]) = MINIMUM_BRIGHTNESS ∧
      np_max (get_scaled_brightness_column [0, 5]) = 1 := by
  have h := claim_C5 [0, 5] (by decide) ⟨0, by decide, 5, by decide, by norm_num⟩
  exact ⟨h.1, h.2.1⟩

/-- **C6**: when all magnitudes are equal, the brightness scaling raises no
division-by-zero error — the scaling range `max - min` is `0` and
`linear_rescale` replaces it by `1` — and every record's brightness is
mapped to `MINIMUM_BRIGHTNESS (0.2)`. -/
theorem claim_C6 (ms : List ℚ) (hne : ms ≠ []) (heq : ∀ a ∈ ms, ∀ b ∈ ms, a = b) :
    np_max (mag_log_column ms) - np_min (mag_log_column ms) = 0 ∧
    ∀ y ∈ get_scaled_brightness_column ms, y = MINIMUM_BRIGHTNESS := by
  have hdeg : np_max (mag_log_column ms) - np_min (mag_log_column ms) = 0 := by
    have hmin := np_min_mem (mag_log_column_ne_nil hne)
    have hmax := np_max_mem (mag_log_column_ne_nil hne)
    obtain ⟨a, ha, hva⟩ := List.mem_map.mp hmin
    obtain ⟨b, hb, hvb⟩ := List.mem_map.mp hmax
    have hva2 : -(a : ℝ) / 2.5 = np_min (mag_log_column ms) := hva
    have hvb2 : -(b : ℝ) / 2.5 = np_max (mag_log_column ms) := hvb
    have hab := heq a ha b hb
    rw [← hva2, ← hvb2, hab]
    ring
  refine ⟨hdeg, ?_⟩
  intro y hy
  rw [get_scaled_brightness_column_eq] at hy
  obtain ⟨x, hx, rfl⟩ := List.mem_map.mp hy
  rw [rescale_fun_degenerate _ _ _ hdeg hx, round5_MINIMUM_BRIGHTNESS]

theorem claim_C6_witness :
    (get_scaled_brightness_column [3, 3]).getD 0 0 = MINIMUM_BRIGHTNESS := by
  have h := (claim_C6 [3, 3] (by decide) (by decide)).2
  apply h
  have hlen : 0 < (get_scaled_brightness_column [3, 3]).length := by
    rw [scaled_brightness_length]
    norm_num
  rw [List.getD_eq_getElem _ _ hlen]
  exact List.getElem_mem hlen

/-- **C7**: for a fixed input catalog and a deterministic worker, writing
the pool's `(index, buffer)` results back into the matrix slot named by
each explicit index produces the same matrix as running the per-frame
compositing strictly sequentially in frame order, whatever the completion
order (any permutation of the dispatched task list). -/
theorem claim_C7 {α β : Type} (worker : ℕ → α → α) (tables : ℕ → List β) (mat : ℕ → α)
    (frames : ℕ) (res : List (ℕ × α)) (hperm : res.Perm (tasks worker tables mat frames)) :
    reinsert mat res = sequential_fill worker tables mat frames := by
  funext j
  have hnd : (res.map Prod.fst).Nodup :=
    ((hperm.map Prod.fst).nodup_iff).mpr (tasks_keys_nodup worker tables mat frames)
  rw [sequential_fill_eq]
  by_cases hc : j < frames ∧ 0 < (tables j).length
  · rw [if_pos hc]
    exact reinsert_eq_of_mem hnd
      (hperm.mem_iff.mpr (tasks_pair_mem worker tables mat frames j hc.1 hc.2))
  · rw [if_neg hc]
    apply reinsert_not_mem
    intro hmem
    exact hc ((tasks_mem_iff worker tables mat frames j).mp
      (((hperm.map Prod.fst).mem_iff).mp hmem))

theorem claim_C7_witness :
    reinsert (fun _ => 0) [(1, 2), (0, 1)] =
      sequential_fill (fun i x => x + i + 1) (fun i => [i]) (fun _ => 0) 2 :=
  claim_C7 (fun i x => x + i + 1) (fun i => [i]) (fun _ => 0) 2 [(1, 2), (0, 1)] (by decide)

theorem MINIMUM_BRIGHTNESS_nonneg : (0 : ℝ) ≤ MINIMUM_BRIGHTNESS := by
  unfold MINIMUM_BRIGHTNESS
  norm_num

/-- Shape and range of the final layout stage
`np_flip_axis2 ∘ np_moveaxis_1_last ∘ materialize`, for buffers whose pixels
are all in `[0, 1]`. -/
theorem layout_spec {K : Type} [LinearOrderedField K] (frames px : ℕ) (mat : ℕ → Frame K)
    (hmat : ∀ f p, rgb01 (mat f p)) :
    (np_flip_axis2 (np_moveaxis_1_last (materialize frames px mat))).length = frames ∧
    ∀ fr ∈ np_flip_axis2 (np_moveaxis_1_last (materialize frames px mat)),
      fr.length = px ∧ ∀ xr ∈ fr, xr.length = px ∧
        ∀ p ∈ xr, p.length = 3 ∧ ∀ v ∈ p, 0 ≤ v ∧ v ≤ 1 := by
  constructor
  · unfold np_flip_axis2 np_moveaxis_1_last materialize
    simp
  · intro fr hfr
    unfold np_flip_axis2 np_moveaxis_1_last materialize at hfr
    simp only [List.map_map] at hfr
    obtain ⟨f, hf, rfl⟩ := List.mem_map.mp hfr
    simp only [Function.comp]
    have hdim1 : ((((List.range 3).map (fun c =>
        (List.range px).map (fun (x : ℕ) =>
          (List.range px).map (fun (y : ℕ) => channel c (mat f ((x : ℤ), (y : ℤ))))))).getD 0
        []).length) = px := by
      rw [getD_map_range 3 _ _ 0 (by norm_num)]
      simp
    have hdim2 : (((((List.range 3).map (fun c =>
        (List.range px).map (fun (x : ℕ) =>
          (List.range px).map (fun (y : ℕ) => channel c (mat f ((x : ℤ), (y : ℤ))))))).getD 0
        []).getD 0 []).length) = px := by
      rw [getD_map_range 3 _ _ 0 (by norm_num)]
      cases Nat.eq_zero_or_pos px with
      | inl h0 =>
        subst h0
        simp
      | inr hpos =>
        rw [getD_map_range px _ _ 0 hpos]
        simp
    rw [hdim1, hdim2]
    constructor
    · simp
    · intro xr hxr
      obtain ⟨xr0, hxr0, rfl⟩ := List.mem_map.mp hxr
      obtain ⟨x, hx, rfl⟩ := List.mem_map.mp hxr0
      constructor
      · simp
      · intro p hp
        rw [List.mem_reverse] at hp
        obtain ⟨y, hy, rfl⟩ := List.mem_map.mp hp
        constructor
        · simp
        · intro v hv
          obtain ⟨ch, hch, rfl⟩ := List.mem_map.mp hv
          obtain ⟨c, hc, rfl⟩ := List.mem_map.mp hch
          refine getD_prop (P := fun v : K => 0 ≤ v ∧ v ≤ 1) ?_ ?_ y
          · refine getD_prop
              (P := fun row : List K => ∀ w ∈ row, 0 ≤ w ∧ w ≤ 1) ?_ ?_ x
            · intro a ha
              obtain ⟨x', hx', rfl⟩ := List.mem_map.mp ha
              intro w hw
              obtain ⟨y', hy', rfl⟩ := List.mem_map.mp hw
              exact channel_bounds (hmat f _) c
            · intro w hw
              simp at hw
          · exact ⟨le_refl 0, zero_le_one⟩

/-- Every pixel of the reassembled (pre-layout) image matrix has all
channels in `[0, 1]`, given in-range background colours, object colours and
kernel weights. -/
theorem filled_rgb01 (frames : ℕ) (image_pixels : ℤ) (bgmap : ℚ → RGB ℝ)
    (tis : List (ℚ × ℕ)) (vals : List ℚ) (local_datetimes : ℕ → LocalTime)
    (separation : ℕ → CatRow → ℚ) (fov : ℚ) (object_colours : String → RGB ℝ)
    (star_table : List CatRow) (planet_tables : ℕ → List CatRow)
    (proj : ℕ → ℚ × ℚ → ℝ × ℝ) (offsets : List (ℤ × ℤ)) (wt : ℤ × ℤ → ℝ)
    (hbg : ∀ q, rgb01 (bgmap q)) (hcol : ∀ s, rgb01 (object_colours s))
    (hwt : ∀ o, 0 ≤ wt o ∧ wt o ≤ 1) :
    ∀ f p, rgb01
      (reinsert (image_backgrounds bgmap local_datetimes)
        (tasks
          (image_worker proj offsets wt image_pixels
            (image_object_tables tis vals local_datetimes separation fov object_colours
              star_table planet_tables))
          (image_object_tables tis vals local_datetimes separation fov object_colours
            star_table planet_tables)
          (image_backgrounds bgmap local_datetimes) frames) f p) := by
  intro f
  have hmat : ∀ i, ∀ p, rgb01 (image_backgrounds bgmap local_datetimes i p) := by
    intro i p
    unfold image_backgrounds fill_frame_background get_timed_background_colour
    exact hbg _
  have hres : ∀ pr ∈ tasks
      (image_worker proj offsets wt image_pixels
        (image_object_tables tis vals local_datetimes separation fov object_colours
          star_table planet_tables))
      (image_object_tables tis vals local_datetimes separation fov object_colours
        star_table planet_tables)
      (image_backgrounds bgmap local_datetimes) frames,
      ∀ p, rgb01 (pr.2 p) := by
    intro pr hpr
    unfold tasks at hpr
    obtain ⟨i, _, rfl⟩ := List.mem_map.mp hpr
    show ∀ p, rgb01 (image_worker proj offsets wt image_pixels _ i
      (image_backgrounds bgmap local_datetimes i) p)
    unfold image_worker
    apply fill_frame_objects_rgb01 _ _ _ _ _ hwt
    · intro r hr
      have h := prepare_object_table_brightness_rgb hr
      refine ⟨⟨le_trans MINIMUM_BRIGHTNESS_nonneg h.1.1, h.1.2⟩, ?_⟩
      obtain ⟨st, hst⟩ := h.2
      rw [hst]
      exact hcol st
    · exact hmat i
  exact reinsert_pointwise_prop (fun fr : Frame ℝ => ∀ p, rgb01 (fr p)) _ _ hmat hres f

/-- **C8**: given background colours, object colours and kernel weights all
in `[0, 1]`, the final image matrix returned by `create_image_matrix` has
shape `(frames, image_pixels, image_pixels, 3)` — the channel axis moved
last and one spatial axis flipped, never resized — and every channel value
of every pixel of every frame lies in `[0, 1]` (the background fill sets
values in `[0, 1]` and each convex blend preserves that range). -/
theorem claim_C8 (frames image_pixels : ℕ) (bgmap : ℚ → RGB ℝ) (tis : List (ℚ × ℕ))
    (vals : List ℚ) (local_datetimes : ℕ → LocalTime) (separation : ℕ → CatRow → ℚ)
    (fov : ℚ) (object_colours : String → RGB ℝ) (star_table : List CatRow)
    (planet_tables : ℕ → List CatRow) (proj : ℕ → ℚ × ℚ → ℝ × ℝ)
    (offsets : List (ℤ × ℤ)) (wt : ℤ × ℤ → ℝ)
    (hbg : ∀ q, rgb01 (bgmap q)) (hcol : ∀ s, rgb01 (object_colours s))
    (hwt : ∀ o, 0 ≤ wt o ∧ wt o ≤ 1) :
    (create_image_matrix frames image_pixels bgmap tis vals local_datetimes separation fov
      object_colours star_table planet_tables proj offsets wt).length = frames ∧
    ∀ fr ∈ create_image_matrix frames image_pixels bgmap tis vals local_datetimes separation
        fov object_colours star_table planet_tables proj offsets wt,
      fr.length = image_pixels ∧ ∀ xr ∈ fr, xr.length = image_pixels ∧
        ∀ p ∈ xr, p.length = 3 ∧ ∀ v ∈ p, 0 ≤ v ∧ v ≤ 1 := by
  have h := layout_spec frames image_pixels
    (reinsert (image_backgrounds bgmap local_datetimes)
      (tasks
        (image_worker proj offsets wt (image_pixels : ℤ)
          (image_object_tables tis vals local_datetimes separation fov object_colours
            star_table planet_tables))
        (image_object_tables tis vals local_datetimes separation fov object_colours
          star_table planet_tables)
        (image_backgrounds bgmap local_datetimes) frames))
    (filled_rgb01 frames (image_pixels : ℤ) bgmap tis vals local_datetimes separation fov
      object_colours star_table planet_tables proj offsets wt hbg hcol hwt)
  exact h

theorem claim_C8_witness :
    (create_image_matrix 1 1 (fun _ => (0, 0, 0)) [] [] (fun _ => ⟨0, 0, 0, 0⟩)
      (fun _ _ => 0) 1 (fun _ => (1, 1, 1)) [] (fun _ => []) (fun _ _ => (0, 0))
      [] (fun _ => 0)).length = 1 :=
  (claim_C8 1 1 (fun _ => (0, 0, 0)) [] [] (fun _ => ⟨0, 0, 0, 0⟩) (fun _ _ => 0) 1
    (fun _ => (1, 1, 1)) [] (fun _ => []) (fun _ _ => (0, 0)) [] (fun _ => 0)
    (fun _ => by norm_num [rgb01]) (fun _ => by norm_num [rgb01])
    (fun _ => by norm_num)).1

end SkySim

